import Mathlib

/-!
Verification of the URL-transformation core of the `aws-console-share-extension`
browser extension (`src/url-processor.ts`, plus the popup's `resolveRoleName`).

Strings are modelled as `List Char`.  The WHATWG `URL` object is modelled by
`URLRec` together with a parser `parseURL` and a serializer `urlToString`
covering the fragment of the URL grammar the extension operates on
(lower-case scheme, registrable host without port or credentials, path
without dot-segments, optional query and fragment); inputs outside this
fragment are simply not in the modelled domain.  The parser mirrors the
normalisations of the real object that matter here: a missing path
serialises as `/`, so `toString` is not the identity on every input string.
-/

namespace AwsExt

/-! ## Character classes -/

def isDigitCh (c : Char) : Bool := 48 ≤ c.toNat && c.toNat ≤ 57

def isLowerCh (c : Char) : Bool := 97 ≤ c.toNat && c.toNat ≤ 122

def isUpperCh (c : Char) : Bool := 65 ≤ c.toNat && c.toNat ≤ 90

def isAlnumCh (c : Char) : Bool := isLowerCh c || isUpperCh c || isDigitCh c

def isLowerAlnum (c : Char) : Bool := isLowerCh c || isDigitCh c

def isHostChar (c : Char) : Bool := isLowerAlnum c || c = '-' || c = '.'

def isSchemeChar (c : Char) : Bool := isLowerCh c

def isWsChar (c : Char) : Bool := c = ' ' || c = '\t' || c = '\n' || c = '\r'

/-- Characters the real `URL` serializer keeps verbatim in a path. -/
def isUrlChar (c : Char) : Bool :=
  isAlnumCh c || c = '!' || c = '$' || c = '&' || c = '(' || c = ')' ||
  c = '*' || c = '+' || c = ',' || c = '-' || c = '.' || c = '/' ||
  c = ':' || c = ';' || c = '=' || c = '@' || c = '_' || c = '~' || c = '%'

def isQueryChar (c : Char) : Bool := isUrlChar c || c = '?'

def isFragChar (c : Char) : Bool := isUrlChar c || c = '?'

def strL (s : String) : List Char := s.toList

def trimList (s : List Char) : List Char :=
  ((s.dropWhile isWsChar).reverse.dropWhile isWsChar).reverse

/-! ## Substring search (models `String.prototype.includes`) -/

def startsWith : List Char → List Char → Bool
  | [], _ => true
  | _ :: _, [] => false
  | a :: t, b :: r => a = b && startsWith t r

def containsSeq (needle : List Char) : List Char → Bool
  | [] => needle.isEmpty
  | b :: t => startsWith needle (b :: t) || containsSeq needle t

/-! ## URL record, serializer, parser -/

structure URLRec where
  scheme : List Char
  host : List Char
  path : List Char
  query : Option (List Char)
  fragment : Option (List Char)
deriving DecidableEq, Repr

def urlToString (u : URLRec) : List Char :=
  u.scheme ++ [':', '/', '/'] ++ u.host ++ u.path ++
  (match u.query with
   | none => []
   | some q => '?' :: q) ++
  (match u.fragment with
   | none => []
   | some f => '#' :: f)

def toLowerAscii (c : Char) : Char :=
  if isUpperCh c then Char.ofNat (c.toNat + 32) else c

/-- Path segments, splitting on a separator character. -/
def splitSep (c : Char) : List Char → List (List Char)
  | [] => [[]]
  | a :: t =>
    if a = c then [] :: splitSep c t
    else
      match splitSep c t with
      | h :: r => (a :: h) :: r
      | [] => [[a]]

/-- Segments the real URL parser collapses as `.` / `..` (including their
percent-encoded spellings). -/
def isDotSeg (seg : List Char) : Bool :=
  let l := seg.map toLowerAscii
  l = strL "." || l = strL ".." || l = strL "%2e" || l = strL "%2e%2e" ||
  l = strL ".%2e" || l = strL "%2e."

def hasDotSeg (p : List Char) : Bool := (splitSep '/' p).any isDotSeg

/-- Parse the part after the path: optional query, optional fragment. -/
def parseTail (rest : List Char) : Option (Option (List Char) × Option (List Char)) :=
  match rest with
  | [] => some (none, none)
  | c :: t =>
    if c = '?' then
      match t.dropWhile isQueryChar with
      | [] => some (some (t.takeWhile isQueryChar), none)
      | d :: f =>
        if d = '#' then
          if f.all isFragChar then some (some (t.takeWhile isQueryChar), some f) else none
        else none
    else if c = '#' then
      if t.all isFragChar then some (none, some t) else none
    else none

/-- Model of `new URL(s)` on the fragment of the grammar used by the
extension.  Mirrors the real constructor's normalisation of an empty path
to `/`. -/
def parseURL (s : List Char) : Option URLRec :=
  let sch := s.takeWhile isSchemeChar
  if sch = [] then none
  else
    match s.dropWhile isSchemeChar with
    | c1 :: c2 :: c3 :: r2 =>
      if c1 = ':' ∧ c2 = '/' ∧ c3 = '/' then
        let host := r2.takeWhile isHostChar
        if host = [] then none
        else
          match r2.dropWhile isHostChar with
          | [] => some ⟨sch, host, ['/'], none, none⟩
          | c :: t =>
            if c = '/' then
              let p := (c :: t).takeWhile isUrlChar
              if hasDotSeg p then none
              else
                match parseTail ((c :: t).dropWhile isUrlChar) with
                | some (q, fr) => some ⟨sch, host, p, q, fr⟩
                | none => none
            else if c = '?' ∨ c = '#' then
              match parseTail (c :: t) with
              | some (q, fr) => some ⟨sch, host, ['/'], q, fr⟩
              | none => none
            else none
      else none
    | _ => none

/-- Well-formedness of a URL record: exactly the image of `parseURL`. -/
def wfURL (u : URLRec) : Bool :=
  !u.scheme.isEmpty && u.scheme.all isSchemeChar &&
  !u.host.isEmpty && u.host.all isHostChar &&
  (match u.path with
   | '/' :: _ => true
   | _ => false) &&
  u.path.all isUrlChar && !hasDotSeg u.path &&
  (match u.query with
   | none => true
   | some q => q.all isQueryChar) &&
  (match u.fragment with
   | none => true
   | some f => f.all isFragChar)

/-! ## takeWhile/dropWhile over concatenations -/

theorem takeWhile_append_stop {p : Char → Bool} {xs : List Char} (y : Char)
    (ys : List Char) (hx : ∀ a ∈ xs, p a = true) (hy : p y = false) :
    (xs ++ y :: ys).takeWhile p = xs := by
  induction xs with
  | nil => simp [List.takeWhile_cons, hy]
  | cons a t ih =>
    have ha : p a = true := hx a (by simp)
    simp only [List.cons_append, List.takeWhile_cons, ha, if_pos]
    exact congrArg (a :: ·) (ih fun b hb => hx b (by simp [hb]))

theorem dropWhile_append_stop {p : Char → Bool} {xs : List Char} (y : Char)
    (ys : List Char) (hx : ∀ a ∈ xs, p a = true) (hy : p y = false) :
    (xs ++ y :: ys).dropWhile p = y :: ys := by
  induction xs with
  | nil => simp [List.dropWhile_cons, hy]
  | cons a t ih =>
    have ha : p a = true := hx a (by simp)
    simp only [List.cons_append, List.dropWhile_cons, ha, if_pos]
    exact ih fun b hb => hx b (by simp [hb])

theorem takeWhile_all_eq {p : Char → Bool} {xs : List Char}
    (hx : ∀ a ∈ xs, p a = true) : xs.takeWhile p = xs := by
  induction xs with
  | nil => rfl
  | cons a t ih =>
    have ha : p a = true := hx a (by simp)
    simp only [List.takeWhile_cons, ha, if_pos]
    exact congrArg (a :: ·) (ih fun b hb => hx b (by simp [hb]))

theorem dropWhile_all_eq {p : Char → Bool} {xs : List Char}
    (hx : ∀ a ∈ xs, p a = true) : xs.dropWhile p = [] := by
  induction xs with
  | nil => rfl
  | cons a t ih =>
    have ha : p a = true := hx a (by simp)
    simp only [List.dropWhile_cons, ha, if_pos]
    exact ih fun b hb => hx b (by simp [hb])

/-! ## Parser soundness and parse/serialize round trip -/

/-- The serialized query+fragment tail of a URL record. -/
def tailStr (q fr : Option (List Char)) : List Char :=
  (match q with
   | none => []
   | some x => '?' :: x) ++
  (match fr with
   | none => []
   | some x => '#' :: x)

theorem urlToString_decomp (sch host p : List Char) (q fr : Option (List Char)) :
    urlToString ⟨sch, host, p, q, fr⟩ =
      sch ++ ':' :: '/' :: '/' :: (host ++ p ++ tailStr q fr) := by
  simp [urlToString, tailStr, List.append_assoc]

theorem tailStr_shape (q fr : Option (List Char)) :
    tailStr q fr = [] ∨
    (∃ ys, tailStr q fr = '?' :: ys) ∨ (∃ ys, tailStr q fr = '#' :: ys) := by
  cases q <;> cases fr <;> simp [tailStr]

theorem parseTail_tailStr {q fr : Option (List Char)}
    (hq : ∀ s, q = some s → ∀ a ∈ s, isQueryChar a = true)
    (hf : ∀ s, fr = some s → ∀ a ∈ s, isFragChar a = true) :
    parseTail (tailStr q fr) = some (q, fr) := by
  cases q with
  | none =>
    cases fr with
    | none => rfl
    | some f =>
      have hf' : f.all isFragChar = true := by
        simp only [List.all_eq_true]
        exact hf f rfl
      simp [tailStr, parseTail, hf']
  | some qs =>
    have hq' : ∀ a ∈ qs, isQueryChar a = true := hq qs rfl
    cases fr with
    | none =>
      simp [tailStr, parseTail, takeWhile_all_eq hq', dropWhile_all_eq hq']
    | some f =>
      have hf' : f.all isFragChar = true := by
        simp only [List.all_eq_true]
        exact hf f rfl
      have h1 : (qs ++ '#' :: f).takeWhile isQueryChar = qs :=
        takeWhile_append_stop _ _ hq' (by decide)
      have h2 : (qs ++ '#' :: f).dropWhile isQueryChar = '#' :: f :=
        dropWhile_append_stop _ _ hq' (by decide)
      simp [tailStr, parseTail, h1, h2, hf']

theorem tailStr_head_not_url {q fr : Option (List Char)} {y : Char}
    {ys : List Char} (h : tailStr q fr = y :: ys) : isUrlChar y = false := by
  rcases tailStr_shape q fr with h0 | ⟨zs, h0⟩ | ⟨zs, h0⟩ <;> rw [h0] at h
  · exact absurd h (by simp)
  · cases h; decide
  · cases h; decide

theorem parseURL_toString {sch host pt : List Char} {q fr : Option (List Char)}
    (hs1 : sch ≠ []) (hs2 : ∀ a ∈ sch, isSchemeChar a = true)
    (hh1 : host ≠ []) (hh2 : ∀ a ∈ host, isHostChar a = true)
    (hp2 : ∀ a ∈ ('/' :: pt), isUrlChar a = true)
    (hp3 : hasDotSeg ('/' :: pt) = false)
    (hq : ∀ s, q = some s → ∀ a ∈ s, isQueryChar a = true)
    (hf : ∀ s, fr = some s → ∀ a ∈ s, isFragChar a = true) :
    parseURL (urlToString ⟨sch, host, '/' :: pt, q, fr⟩) =
      some ⟨sch, host, '/' :: pt, q, fr⟩ := by
  have hser : urlToString ⟨sch, host, '/' :: pt, q, fr⟩ =
      sch ++ ':' :: '/' :: '/' :: (host ++ '/' :: (pt ++ tailStr q fr)) := by
    rw [urlToString_decomp]
    simp [List.append_assoc]
  have htw1 : (sch ++ ':' :: '/' :: '/' ::
      (host ++ '/' :: (pt ++ tailStr q fr))).takeWhile isSchemeChar = sch :=
    takeWhile_append_stop _ _ hs2 (by decide)
  have hdw1 : (sch ++ ':' :: '/' :: '/' ::
      (host ++ '/' :: (pt ++ tailStr q fr))).dropWhile isSchemeChar =
      ':' :: '/' :: '/' :: (host ++ '/' :: (pt ++ tailStr q fr)) :=
    dropWhile_append_stop _ _ hs2 (by decide)
  have htw2 : (host ++ '/' :: (pt ++ tailStr q fr)).takeWhile isHostChar = host :=
    takeWhile_append_stop _ _ hh2 (by decide)
  have hdw2 : (host ++ '/' :: (pt ++ tailStr q fr)).dropWhile isHostChar =
      '/' :: (pt ++ tailStr q fr) :=
    dropWhile_append_stop _ _ hh2 (by decide)
  have htw3 : ('/' :: (pt ++ tailStr q fr)).takeWhile isUrlChar = '/' :: pt := by
    have hcast : '/' :: (pt ++ tailStr q fr) = ('/' :: pt) ++ tailStr q fr := by simp
    rw [hcast]
    rcases hts : tailStr q fr with _ | ⟨y, ys⟩
    · rw [List.append_nil]
      exact takeWhile_all_eq hp2
    · exact takeWhile_append_stop _ _ hp2 (tailStr_head_not_url hts)
  have hdw3 : ('/' :: (pt ++ tailStr q fr)).dropWhile isUrlChar = tailStr q fr := by
    have hcast : '/' :: (pt ++ tailStr q fr) = ('/' :: pt) ++ tailStr q fr := by simp
    rw [hcast]
    rcases hts : tailStr q fr with _ | ⟨y, ys⟩
    · rw [List.append_nil]
      exact dropWhile_all_eq hp2
    · exact dropWhile_append_stop _ _ hp2 (tailStr_head_not_url hts)
  rw [hser]
  simp only [parseURL, htw1, hdw1, if_neg hs1]
  simp [htw2, hdw2, hh1, htw3, hdw3, hp3, parseTail_tailStr hq hf]

theorem parseTail_sound {rest : List Char} {q fr : Option (List Char)}
    (h : parseTail rest = some (q, fr)) :
    (∀ x, q = some x → ∀ a ∈ x, isQueryChar a = true) ∧
    (∀ x, fr = some x → ∀ a ∈ x, isFragChar a = true) := by
  simp only [parseTail] at h
  split at h
  · injection h with h
    cases h
    exact ⟨by simp, by simp⟩
  · rename_i c t
    split at h
    · split at h
      · injection h with h
        cases h
        refine ⟨?_, by simp⟩
        intro x hx a ha
        cases hx
        have := List.all_eq_true.mp (List.all_takeWhile (p := isQueryChar) (l := t)) a ha
        exact this
      · rename_i d f hdq
        split at h
        · split at h
          · rename_i hall
            injection h with h
            cases h
            refine ⟨?_, ?_⟩
            · intro x hx a ha
              cases hx
              exact List.all_eq_true.mp (List.all_takeWhile (p := isQueryChar) (l := t)) a ha
            · intro x hx a ha
              cases hx
              exact List.all_eq_true.mp hall a ha
          · exact absurd h (by simp)
        · exact absurd h (by simp)
    · split at h
      · split at h
        · rename_i hall
          injection h with h
          cases h
          refine ⟨by simp, ?_⟩
          intro x hx a ha
          cases hx
          exact List.all_eq_true.mp hall a ha
        · exact absurd h (by simp)
      · exact absurd h (by simp)

theorem wfURL_intro {sch host p : List Char} {q fr : Option (List Char)}
    (h1 : sch ≠ []) (h2 : ∀ a ∈ sch, isSchemeChar a = true)
    (h3 : host ≠ []) (h4 : ∀ a ∈ host, isHostChar a = true)
    (h5 : ∃ t, p = '/' :: t) (h6 : ∀ a ∈ p, isUrlChar a = true)
    (h7 : hasDotSeg p = false)
    (h8 : ∀ x, q = some x → ∀ a ∈ x, isQueryChar a = true)
    (h9 : ∀ x, fr = some x → ∀ a ∈ x, isFragChar a = true) :
    wfURL ⟨sch, host, p, q, fr⟩ = true := by
  obtain ⟨t, rfl⟩ := h5
  simp only [wfURL, Bool.and_eq_true]
  refine ⟨⟨⟨⟨⟨⟨⟨⟨?_, ?_⟩, ?_⟩, ?_⟩, ?_⟩, ?_⟩, ?_⟩, ?_⟩, ?_⟩
  · simp [List.isEmpty_iff, h1]
  · exact List.all_eq_true.mpr h2
  · simp [List.isEmpty_iff, h3]
  · exact List.all_eq_true.mpr h4
  · trivial
  · exact List.all_eq_true.mpr h6
  · simp [h7]
  · cases q with
    | none => trivial
    | some x => exact List.all_eq_true.mpr (h8 x rfl)
  · cases fr with
    | none => trivial
    | some x => exact List.all_eq_true.mpr (h9 x rfl)

theorem wfURL_elim {u : URLRec} (h : wfURL u = true) :
    u.scheme ≠ [] ∧ (∀ a ∈ u.scheme, isSchemeChar a = true) ∧
    u.host ≠ [] ∧ (∀ a ∈ u.host, isHostChar a = true) ∧
    (∃ t, u.path = '/' :: t) ∧ (∀ a ∈ u.path, isUrlChar a = true) ∧
    hasDotSeg u.path = false ∧
    (∀ x, u.query = some x → ∀ a ∈ x, isQueryChar a = true) ∧
    (∀ x, u.fragment = some x → ∀ a ∈ x, isFragChar a = true) := by
  simp only [wfURL, Bool.and_eq_true] at h
  obtain ⟨⟨⟨⟨⟨⟨⟨⟨w1, w2⟩, w3⟩, w4⟩, w5⟩, w6⟩, w7⟩, w8⟩, w9⟩ := h
  refine ⟨?_, List.all_eq_true.mp w2, ?_, List.all_eq_true.mp w4, ?_,
    List.all_eq_true.mp w6, ?_, ?_, ?_⟩
  · simpa [List.isEmpty_iff] using w1
  · simpa [List.isEmpty_iff] using w3
  · revert w5
    cases hp : u.path with
    | nil => simp
    | cons a t =>
      by_cases ha : a = '/'
      · subst ha
        exact fun _ => ⟨t, rfl⟩
      · intro w5
        exfalso
        revert w5
        simp [ha]
  · simpa using w7
  · intro x hx a ha
    rw [hx] at w8
    exact List.all_eq_true.mp w8 a ha
  · intro x hx a ha
    rw [hx] at w9
    exact List.all_eq_true.mp w9 a ha

/-- Round trip, packaged through `wfURL`. -/
theorem parseURL_toString_wf {u : URLRec} (h : wfURL u = true) :
    parseURL (urlToString u) = some u := by
  obtain ⟨sch, host, p, q, fr⟩ := u
  obtain ⟨h1, h2, h3, h4, ⟨t, hp⟩, h6, h7, h8, h9⟩ := wfURL_elim h
  simp only at hp h6 h7 h8 h9
  subst hp
  exact parseURL_toString h1 h2 h3 h4 h6 h7 h8 h9

theorem parseURL_sound {s : List Char} {u : URLRec}
    (h : parseURL s = some u) : wfURL u = true := by
  simp only [parseURL] at h
  split at h
  · exact absurd h (by simp)
  rename_i hsch
  split at h
  rotate_left
  · exact absurd h (by simp)
  rename_i c1 c2 c3 r2
  split at h
  rotate_left
  · exact absurd h (by simp)
  rename_i hc
  split at h
  · exact absurd h (by simp)
  rename_i hhost
  have hschAll : ∀ a ∈ List.takeWhile isSchemeChar s, isSchemeChar a = true :=
    List.all_eq_true.mp (List.all_takeWhile (p := isSchemeChar) (l := s))
  split at h
  · injection h with h
    cases h
    refine wfURL_intro hsch hschAll hhost
      (List.all_eq_true.mp (List.all_takeWhile ..)) ⟨[], rfl⟩ ?_ (by decide)
      (by simp) (by simp)
    intro a ha
    simp at ha
    subst ha
    decide
  · rename_i c t hdw
    split at h
    · rename_i hcs
      cases hcs
      split at h
      · exact absurd h (by simp)
      rename_i hds
      split at h
      rotate_left
      · exact absurd h (by simp)
      rename_i q fr hpt
      injection h with h
      cases h
      have hqf := parseTail_sound hpt
      refine wfURL_intro hsch hschAll hhost
        (List.all_eq_true.mp (List.all_takeWhile ..)) ?_
        (List.all_eq_true.mp (List.all_takeWhile ..)) (by simpa using hds)
        hqf.1 hqf.2
      refine ⟨List.takeWhile isUrlChar t, ?_⟩
      simp [List.takeWhile_cons, (by decide : isUrlChar '/' = true)]
    · rename_i hcs
      split at h
      rotate_left
      · exact absurd h (by simp)
      split at h
      rotate_left
      · exact absurd h (by simp)
      rename_i q fr hpt
      injection h with h
      cases h
      have hqf := parseTail_sound hpt
      refine wfURL_intro hsch hschAll hhost
        (List.all_eq_true.mp (List.all_takeWhile ..)) ⟨[], rfl⟩ ?_ (by decide)
        hqf.1 hqf.2
      intro a ha
      simp at ha
      subst ha
      decide

theorem urlToString_inj {u v : URLRec} (hu : wfURL u = true)
    (hv : wfURL v = true) (h : urlToString u = urlToString v) : u = v := by
  have h1 := parseURL_toString_wf hu
  rw [h, parseURL_toString_wf hv] at h1
  injection h1 with h1
  exact h1.symm

theorem scheme_not_ws {a : Char} (h : isSchemeChar a = true) :
    isWsChar a = false := by
  cases hw : isWsChar a
  · rfl
  · exfalso
    simp only [isWsChar, Bool.or_eq_true, decide_eq_true_eq] at hw
    rcases hw with ((h0 | h0) | h0) | h0 <;> subst h0 <;> exact absurd h (by decide)

theorem parseURL_head {s : List Char} {u : URLRec} (h : parseURL s = some u) :
    ∃ a t, s = a :: t ∧ isSchemeChar a = true := by
  simp only [parseURL] at h
  split at h
  · exact absurd h (by simp)
  rename_i hsch
  cases s with
  | nil => exact absurd rfl hsch
  | cons a t =>
    refine ⟨a, t, rfl, ?_⟩
    cases ha : isSchemeChar a
    · rw [List.takeWhile_cons, ha] at hsch
      exact absurd rfl hsch
    · rfl

theorem trim_ne_of_parse {s : List Char} {u : URLRec}
    (h : parseURL s = some u) : s ≠ [] ∧ trimList s ≠ [] := by
  obtain ⟨a, t, rfl, ha⟩ := parseURL_head h
  refine ⟨by simp, ?_⟩
  have hwa : isWsChar a = false := scheme_not_ws ha
  intro hcon
  have h1 : (a :: t).dropWhile isWsChar = a :: t := by
    rw [List.dropWhile_cons, hwa]
    simp
  rw [trimList, h1] at hcon
  have h2 : (a :: t).reverse.dropWhile isWsChar = [] := by
    cases h3 : (a :: t).reverse.dropWhile isWsChar with
    | nil => rfl
    | cons b r =>
      rw [h3] at hcon
      simp at hcon
  rw [List.dropWhile_eq_nil_iff] at h2
  have h4 : isWsChar a = true := h2 a (by simp)
  rw [hwa] at h4
  exact absurd h4 (by simp)

/-! ## application/x-www-form-urlencoded (URLSearchParams) -/

def utf8Bytes (c : Char) : List Nat :=
  let v := c.toNat
  if v < 128 then [v]
  else if v < 2048 then [192 + v / 64, 128 + v % 64]
  else if v < 65536 then [224 + v / 4096, 128 + v / 64 % 64, 128 + v % 64]
  else [240 + v / 262144, 128 + v / 4096 % 64, 128 + v / 64 % 64, 128 + v % 64]

def strBytes (s : List Char) : List Nat := s.flatMap utf8Bytes

def hexDigit (n : Nat) : Char :=
  if n < 10 then Char.ofNat (48 + n) else Char.ofNat (55 + n)

/-- Characters `URLSearchParams` serialization keeps verbatim. -/
def isFormSafe (c : Char) : Bool :=
  isAlnumCh c || c = '*' || c = '-' || c = '.' || c = '_'

def encFormChar (c : Char) : List Char :=
  if c = ' ' then ['+']
  else if isFormSafe c then [c]
  else (utf8Bytes c).flatMap (fun b => ['%', hexDigit (b / 16), hexDigit (b % 16)])

def formUrlEncode (s : List Char) : List Char := s.flatMap encFormChar

def joinAmp : List (List Char) → List Char
  | [] => []
  | [x] => x
  | x :: y :: t => x ++ '&' :: joinAmp (y :: t)

/-- `URLSearchParams.toString()` over an ordered list of key/value pairs. -/
def serializeParams (ps : List (List Char × List Char)) : List Char :=
  joinAmp (ps.map fun p => formUrlEncode p.1 ++ '=' :: formUrlEncode p.2)

def plus2space (c : Char) : Char := if c = '+' then ' ' else c

def hexValNat (n : Nat) : Option Nat :=
  if 48 ≤ n ∧ n ≤ 57 then some (n - 48)
  else if 65 ≤ n ∧ n ≤ 70 then some (n - 55)
  else if 97 ≤ n ∧ n ≤ 102 then some (n - 87)
  else none

/-- WHATWG percent-decoding at the byte level.  (Defined by disjoint
length-based patterns; each arm agrees with the one-byte-at-a-time spec:
a `%` followed by two hex digits decodes, anything else passes through.) -/
def pctDecodeBytes : List Nat → List Nat
  | [] => []
  | [b] => [b]
  | [b, a] => b :: pctDecodeBytes [a]
  | b :: a :: c :: rest2 =>
    if b = 37 then
      match hexValNat a, hexValNat c with
      | some x, some y => (16 * x + y) :: pctDecodeBytes rest2
      | _, _ => b :: pctDecodeBytes (a :: c :: rest2)
    else b :: pctDecodeBytes (a :: c :: rest2)
termination_by l => l.length
decreasing_by all_goals simp <;> omega

def isContByte (n : Nat) : Bool := 128 ≤ n && n < 192

def replChar : Char := Char.ofNat 65533

/-- Lenient UTF-8 decoding (errors yield the replacement character, as in
the JS text decoder).  Defined by disjoint length-based patterns. -/
def utf8DecodeBytes : List Nat → List Char
  | [] => []
  | [b] => if b < 128 then [Char.ofNat b] else [replChar]
  | [b, b1] =>
    if b < 128 then Char.ofNat b :: utf8DecodeBytes [b1]
    else if b < 194 then replChar :: utf8DecodeBytes [b1]
    else if b < 224 then
      if isContByte b1 then [Char.ofNat ((b - 192) * 64 + (b1 - 128))]
      else replChar :: utf8DecodeBytes [b1]
    else replChar :: utf8DecodeBytes [b1]
  | [b, b1, b2] =>
    if b < 128 then Char.ofNat b :: utf8DecodeBytes [b1, b2]
    else if b < 194 then replChar :: utf8DecodeBytes [b1, b2]
    else if b < 224 then
      if isContByte b1 then
        Char.ofNat ((b - 192) * 64 + (b1 - 128)) :: utf8DecodeBytes [b2]
      else replChar :: utf8DecodeBytes [b1, b2]
    else if b < 240 then
      if isContByte b1 && isContByte b2 then
        [Char.ofNat ((b - 224) * 4096 + (b1 - 128) * 64 + (b2 - 128))]
      else replChar :: utf8DecodeBytes [b1, b2]
    else replChar :: utf8DecodeBytes [b1, b2]
  | b :: b1 :: b2 :: b3 :: rest2 =>
    if b < 128 then Char.ofNat b :: utf8DecodeBytes (b1 :: b2 :: b3 :: rest2)
    else if b < 194 then replChar :: utf8DecodeBytes (b1 :: b2 :: b3 :: rest2)
    else if b < 224 then
      if isContByte b1 then
        Char.ofNat ((b - 192) * 64 + (b1 - 128)) ::
          utf8DecodeBytes (b2 :: b3 :: rest2)
      else replChar :: utf8DecodeBytes (b1 :: b2 :: b3 :: rest2)
    else if b < 240 then
      if isContByte b1 && isContByte b2 then
        Char.ofNat ((b - 224) * 4096 + (b1 - 128) * 64 + (b2 - 128)) ::
          utf8DecodeBytes (b3 :: rest2)
      else replChar :: utf8DecodeBytes (b1 :: b2 :: b3 :: rest2)
    else if b < 245 then
      if isContByte b1 && isContByte b2 && isContByte b3 then
        Char.ofNat ((b - 240) * 262144 + (b1 - 128) * 4096 + (b2 - 128) * 64 +
          (b3 - 128)) :: utf8DecodeBytes rest2
      else replChar :: utf8DecodeBytes (b1 :: b2 :: b3 :: rest2)
    else replChar :: utf8DecodeBytes (b1 :: b2 :: b3 :: rest2)
termination_by l => l.length
decreasing_by all_goals simp <;> omega

/-- Decoding of one urlencoded component: `+` to space, percent-decode,
UTF-8 decode. -/
def decodeFormValue (s : List Char) : List Char :=
  utf8DecodeBytes (pctDecodeBytes (strBytes (s.map plus2space)))

/-- `new URLSearchParams(q)`: the ordered decoded key/value pairs. -/
def parseFormParams (s : List Char) : List (List Char × List Char) :=
  (splitSep '&' s).filterMap fun piece =>
    if piece = [] then none
    else
      some (decodeFormValue (piece.takeWhile fun c => c != '='),
        decodeFormValue
          (match piece.dropWhile fun c => c != '=' with
           | _ :: v => v
           | [] => []))

/-- `new URLSearchParams(q).get(key)`: first value for the key. -/
def getSearchParam (q : List Char) (key : List Char) : Option (List Char) :=
  (parseFormParams q).lookup key

/-! ## The url-processor functions -/

def consoleNeedle : List Char := strL "console.aws.amazon.com"

/-- Models `hostname.includes('console.aws.amazon.com')`. -/
def containsConsole (h : List Char) : Bool := containsSeq consoleNeedle h

/-- Models the regex `^(\\d{12})-[a-z0-9]+\\.(.+)$` without its final `(.+)`
requirement: returns the portion of the host after the first dot following
the account prefix, or `none` when the prefix does not match.  (The regex's
greedy `[a-z0-9]+` must stop exactly at the first non-matching character,
which the `\\.` then forces to be a dot, so the translation is exact.) -/
def splitAcct (h : List Char) : Option (List Char) :=
  if (h.take 12).length = 12 && (h.take 12).all isDigitCh then
    match h.drop 12 with
    | c :: t =>
      if c = '-' then
        if t.takeWhile isLowerAlnum = [] then none
        else
          match t.dropWhile isLowerAlnum with
          | d :: r => if d = '.' then some r else none
          | [] => none
      else none
    | [] => none
  else none

/-- The full clean-url regex: as `splitAcct` but the remainder after the dot
must be non-empty (the `(.+)` group). -/
def multiMatch (h : List Char) : Option (List Char) :=
  match splitAcct h with
  | some r => if r = [] then none else some r
  | none => none

structure UrlResult where
  success : Bool
  url : Option (List Char)
  error : Option (List Char)
  type : List Char
deriving DecidableEq, Repr

def mkErr (msg : String) (t : String) : UrlResult :=
  ⟨false, none, some (strL msg), strL t⟩

def mkOk (u : List Char) (t : String) : UrlResult := ⟨true, some u, none, strL t⟩

/-- Model of `cleanUrl` from `src/url-processor.ts`. -/
def cleanUrl (s : List Char) : UrlResult :=
  if s = [] then mkErr "Invalid URL provided" "clean"
  else if trimList s = [] then mkErr "Invalid URL provided" "clean"
  else
    match parseURL s with
    | none => mkErr "Invalid URL format" "clean"
    | some u =>
      if containsConsole u.host then
        match multiMatch u.host with
        | some r => mkOk (urlToString { u with host := r }) "clean"
        | none => mkOk (urlToString u) "clean"
      else mkErr "Not an AWS Console URL" "clean"

/-- Model of `isMultiAccountUrl`: tests `/^\\d{12}-[a-z0-9]+\\./` on the
hostname (no requirement of anything after the dot). -/
def isMultiAccountUrl (s : List Char) : Bool :=
  match parseURL s with
  | none => false
  | some u => (splitAcct u.host).isSome

/-- Model of `validateAwsConsoleUrl`. -/
def validateAwsConsoleUrl (s : List Char) : Bool :=
  if s = [] then false
  else
    match parseURL s with
    | none => false
    | some u => u.scheme = strL "https" && containsConsole u.host

/-- Match `[a-z]{2}-[a-z]+-\\d+` at the head of the list, returning the
captured region and the rest. -/
def matchRegionPrefix (l : List Char) : Option (List Char × List Char) :=
  match l with
  | a :: b :: c :: t =>
    if isLowerCh a && isLowerCh b && c = '-' then
      if t.takeWhile isLowerCh = [] then none
      else
        match t.dropWhile isLowerCh with
        | d :: t3 =>
          if d = '-' then
            if t3.takeWhile isDigitCh = [] then none
            else
              some (a :: b :: '-' :: (t.takeWhile isLowerCh ++
                '-' :: t3.takeWhile isDigitCh), t3.dropWhile isDigitCh)
          else none
        | [] => none
    else none
  | _ => none

/-- Leftmost match of `([a-z]{2}-[a-z]+-\\d+)\\.console\\.aws\\.amazon\\.com`
in a hostname. -/
def findRegionHost : List Char → Option (List Char)
  | [] => none
  | a :: t =>
    match matchRegionPrefix (a :: t) with
    | some (cap, rest) =>
      if startsWith (strL ".console.aws.amazon.com") rest then some cap
      else findRegionHost t
    | none => findRegionHost t

/-- Anchored test of `^[a-z]{2}-[a-z]+-\\d+$`. -/
def isRegionCode (s : List Char) : Bool :=
  match matchRegionPrefix s with
  | some (_, rest) => rest.isEmpty
  | none => false

/-- Model of `extractRegionFromUrl`. -/
def extractRegionFromUrl (s : List Char) : Option (List Char) :=
  if s = [] then none
  else
    match parseURL s with
    | none => none
    | some u =>
      match findRegionHost u.host with
      | some r => some r
      | none =>
        match u.query with
        | none => none
        | some q =>
          match getSearchParam q (strL "region") with
          | none => none
          | some rp => if rp ≠ [] && isRegionCode rp then some rp else none

/-! ## Session / config data model and the deep-link assembler -/

structure SessionInfo where
  accountId : List Char
  roleName : List Char
  currentUrl : List Char
  isMultiAccount : Bool
  region : List Char
deriving DecidableEq, Repr

structure ExtensionConfig where
  ssoSubdomain : List Char
  defaultAction : List Char
  showNotifications : Bool
  autoClosePopup : Bool
  roleSelectionStrategy : List Char
  defaultRoleName : List Char
  accountRoleMap : List (List Char × List Char)
deriving DecidableEq, Repr

/-- JS object property lookup on the account→role map. -/
def lookupRole : List (List Char × List Char) → List Char → Option (List Char)
  | [], _ => none
  | (k, v) :: t, a => if k = a then some v else lookupRole t a

/-- Model of `generateDeepLink` from `src/url-processor.ts`.  The inner
`new URL(...)` on the interpolated subdomain is modelled by `parseURL`; a
parse failure lands in the function's `catch`, which returns the generic
failure result. -/
def generateDeepLink (si : SessionInfo) (cfg : ExtensionConfig) : UrlResult :=
  if trimList cfg.ssoSubdomain = [] then
    mkErr "AWS SSO subdomain not configured" "deeplink"
  else if si.accountId = [] ∨ si.roleName = [] ∨ si.currentUrl = [] then
    mkErr "Missing session information" "deeplink"
  else if (cleanUrl si.currentUrl).success = false then
    mkErr "Failed to clean destination URL" "deeplink"
  else
    match parseURL (strL "https://" ++ trimList cfg.ssoSubdomain ++
        strL ".awsapps.com/start/") with
    | none => mkErr "Failed to generate deep link" "deeplink"
    | some u =>
      mkOk (urlToString { u with
        fragment := some (strL "/console?" ++ serializeParams
          [(strL "account_id", si.accountId),
           (strL "role_name", si.roleName),
           (strL "destination", (cleanUrl si.currentUrl).url.getD [])]) })
        "deeplink"

/-- Model of the popup's `resolveRoleName` (part_004): note the JS code
tests the looked-up value for truthiness, so an empty-string mapping falls
through to the default role. -/
def resolveRoleName (si : SessionInfo) (cfg : ExtensionConfig) : List Char :=
  let strategy :=
    if cfg.roleSelectionStrategy = [] then strL "current"
    else cfg.roleSelectionStrategy
  if strategy = strL "current" then si.roleName
  else if strategy = strL "default" then
    if cfg.defaultRoleName = [] then si.roleName else cfg.defaultRoleName
  else if strategy = strL "account-map" then
    match lookupRole cfg.accountRoleMap si.accountId with
    | some r =>
      if r = [] then
        if cfg.defaultRoleName = [] then si.roleName else cfg.defaultRoleName
      else r
    | none =>
      if cfg.defaultRoleName = [] then si.roleName else cfg.defaultRoleName
  else si.roleName

/-- Role resolution as the spec's three-tier table reads (amended: a mapped
role is used only when the mapping value is non-empty). -/
def resolveRoleNameSpec (si : SessionInfo) (cfg : ExtensionConfig) : List Char :=
  if cfg.roleSelectionStrategy = strL "default" then
    match cfg.defaultRoleName with
    | [] => si.roleName
    | d => d
  else if cfg.roleSelectionStrategy = strL "account-map" then
    match lookupRole cfg.accountRoleMap si.accountId with
    | some (c :: r) => c :: r
    | _ =>
      match cfg.defaultRoleName with
      | [] => si.roleName
      | d => d
  else si.roleName

/-! ## Encoder/decoder round-trip lemmas -/

theorem char_toNat_lt (c : Char) : c.toNat < 1114112 := by
  have h := c.valid
  have he : c.toNat = c.val.toNat := rfl
  rcases h with h | h <;> omega

theorem char_eq_of_toNat {c : Char} {n : Nat} (h : c.toNat = n) :
    c = Char.ofNat n := by
  subst h
  exact (Char.ofNat_toNat c).symm

theorem utf8Bytes_lt (c : Char) : ∀ b ∈ utf8Bytes c, b < 256 := by
  intro b hb
  have hlt := char_toNat_lt c
  simp only [utf8Bytes] at hb
  split at hb
  · simp at hb
    omega
  · split at hb
    · simp at hb
      rcases hb with h | h <;> omega
    · split at hb
      · simp at hb
        rcases hb with h | h | h <;> omega
      · simp at hb
        rcases hb with h | h | h | h <;> omega

theorem decode_ascii (b : Nat) (l : List Nat) (hb : b < 128) :
    utf8DecodeBytes (b :: l) = Char.ofNat b :: utf8DecodeBytes l := by
  match l with
  | [] => simp [utf8DecodeBytes, hb]
  | [x] => simp [utf8DecodeBytes, hb]
  | [x, y] => simp [utf8DecodeBytes, hb]
  | x :: y :: z :: t => simp [utf8DecodeBytes, hb]

theorem decode_two (b b1 : Nat) (l : List Nat) (h1 : 194 ≤ b) (h2 : b < 224)
    (h3 : isContByte b1 = true) :
    utf8DecodeBytes (b :: b1 :: l) =
      Char.ofNat ((b - 192) * 64 + (b1 - 128)) :: utf8DecodeBytes l := by
  match l with
  | [] =>
    simp [utf8DecodeBytes, h3, h2, show ¬ b < 128 by omega,
      show ¬ b < 194 by omega]
  | [x] =>
    simp [utf8DecodeBytes, h3, h2, show ¬ b < 128 by omega,
      show ¬ b < 194 by omega]
  | x :: y :: t =>
    simp [utf8DecodeBytes, h3, h2, show ¬ b < 128 by omega,
      show ¬ b < 194 by omega]

theorem decode_three (b b1 b2 : Nat) (l : List Nat) (h1 : 224 ≤ b)
    (h2 : b < 240) (h3 : isContByte b1 = true) (h4 : isContByte b2 = true) :
    utf8DecodeBytes (b :: b1 :: b2 :: l) =
      Char.ofNat ((b - 224) * 4096 + (b1 - 128) * 64 + (b2 - 128)) ::
        utf8DecodeBytes l := by
  match l with
  | [] =>
    simp [utf8DecodeBytes, h3, h4, h2, show ¬ b < 128 by omega,
      show ¬ b < 194 by omega, show ¬ b < 224 by omega]
  | x :: t =>
    simp [utf8DecodeBytes, h3, h4, h2, show ¬ b < 128 by omega,
      show ¬ b < 194 by omega, show ¬ b < 224 by omega]

theorem decode_four (b b1 b2 b3 : Nat) (l : List Nat) (h1 : 240 ≤ b)
    (h2 : b < 245) (h3 : isContByte b1 = true) (h4 : isContByte b2 = true)
    (h5 : isContByte b3 = true) :
    utf8DecodeBytes (b :: b1 :: b2 :: b3 :: l) =
      Char.ofNat ((b - 240) * 262144 + (b1 - 128) * 4096 + (b2 - 128) * 64 +
        (b3 - 128)) :: utf8DecodeBytes l := by
  simp [utf8DecodeBytes, h3, h4, h5, h2, show ¬ b < 128 by omega,
    show ¬ b < 194 by omega, show ¬ b < 224 by omega, show ¬ b < 240 by omega]

set_option maxRecDepth 8192 in
theorem utf8_decode_encode (c : Char) (l : List Nat) :
    utf8DecodeBytes (utf8Bytes c ++ l) = c :: utf8DecodeBytes l := by
  have hlt := char_toNat_lt c
  by_cases h1 : c.toNat < 128
  · rw [show utf8Bytes c = [c.toNat] from by simp [utf8Bytes, h1]]
    rw [List.cons_append, List.nil_append, decode_ascii c.toNat l h1,
      Char.ofNat_toNat]
  · by_cases h2 : c.toNat < 2048
    · rw [show utf8Bytes c = [192 + c.toNat / 64, 128 + c.toNat % 64] from by
        simp [utf8Bytes, h1, h2]]
      rw [List.cons_append, List.cons_append, List.nil_append]
      rw [decode_two (192 + c.toNat / 64) (128 + c.toNat % 64) l (by omega) (by omega)
        (by simp only [isContByte, Bool.and_eq_true, decide_eq_true_eq]; omega)]
      congr 1
      have harg : (192 + c.toNat / 64 - 192) * 64 + (128 + c.toNat % 64 - 128) =
          c.toNat := by omega
      rw [harg, Char.ofNat_toNat]
    · by_cases h3 : c.toNat < 65536
      · rw [show utf8Bytes c = [224 + c.toNat / 4096, 128 + c.toNat / 64 % 64,
          128 + c.toNat % 64] from by simp [utf8Bytes, h1, h2, h3]]
        rw [List.cons_append, List.cons_append, List.cons_append,
          List.nil_append]
        rw [decode_three (224 + c.toNat / 4096) (128 + c.toNat / 64 % 64) (128 + c.toNat % 64) l (by omega) (by omega)
          (by simp only [isContByte, Bool.and_eq_true, decide_eq_true_eq]; omega)
          (by simp only [isContByte, Bool.and_eq_true, decide_eq_true_eq]; omega)]
        congr 1
        have harg : (224 + c.toNat / 4096 - 224) * 4096 +
            (128 + c.toNat / 64 % 64 - 128) * 64 + (128 + c.toNat % 64 - 128) =
            c.toNat := by omega
        rw [harg, Char.ofNat_toNat]
      · rw [show utf8Bytes c = [240 + c.toNat / 262144,
          128 + c.toNat / 4096 % 64, 128 + c.toNat / 64 % 64,
          128 + c.toNat % 64] from by simp [utf8Bytes, h1, h2, h3]]
        rw [List.cons_append, List.cons_append, List.cons_append,
          List.cons_append, List.nil_append]
        rw [decode_four (240 + c.toNat / 262144) (128 + c.toNat / 4096 % 64) (128 + c.toNat / 64 % 64) (128 + c.toNat % 64) l (by omega) (by omega)
          (by simp only [isContByte, Bool.and_eq_true, decide_eq_true_eq]; omega)
          (by simp only [isContByte, Bool.and_eq_true, decide_eq_true_eq]; omega)
          (by simp only [isContByte, Bool.and_eq_true, decide_eq_true_eq]; omega)]
        congr 1
        have harg : (240 + c.toNat / 262144 - 240) * 262144 +
            (128 + c.toNat / 4096 % 64 - 128) * 4096 +
            (128 + c.toNat / 64 % 64 - 128) * 64 + (128 + c.toNat % 64 - 128) =
            c.toNat := by omega
        rw [harg, Char.ofNat_toNat]

theorem utf8_decode_strBytes (v : List Char) :
    utf8DecodeBytes (strBytes v) = v := by
  induction v with
  | nil =>
    simp [strBytes, utf8DecodeBytes]
  | cons c t ih =>
    have h0 : strBytes (c :: t) = utf8Bytes c ++ strBytes t := by
      simp [strBytes]
    rw [h0, utf8_decode_encode, ih]

theorem pct_plain (b : Nat) (l : List Nat) (hb : b ≠ 37) :
    pctDecodeBytes (b :: l) = b :: pctDecodeBytes l := by
  match l with
  | [] => simp [pctDecodeBytes]
  | [a] => simp [pctDecodeBytes]
  | a :: c :: t => simp [pctDecodeBytes, hb]

theorem pct_triple (a c : Nat) (l : List Nat) {x y : Nat}
    (ha : hexValNat a = some x) (hc : hexValNat c = some y) :
    pctDecodeBytes (37 :: a :: c :: l) = (16 * x + y) :: pctDecodeBytes l := by
  simp [pctDecodeBytes, ha, hc]

theorem hexDigit_toNat_lt (n : Nat) (h : n < 16) : (hexDigit n).toNat < 128 := by
  interval_cases n <;> decide

theorem hexVal_hexDigit (n : Nat) (h : n < 16) :
    hexValNat ((hexDigit n).toNat) = some n := by
  interval_cases n <;> decide

theorem plus2space_hexDigit (n : Nat) (h : n < 16) :
    plus2space (hexDigit n) = hexDigit n := by
  interval_cases n <;> decide

def triBytes (b : Nat) : List Nat :=
  [37, (hexDigit (b / 16)).toNat, (hexDigit (b % 16)).toNat]

theorem pct_triBytes (b : Nat) (l : List Nat) (hb : b < 256) :
    pctDecodeBytes (triBytes b ++ l) = b :: pctDecodeBytes l := by
  have h1 := hexVal_hexDigit (b / 16) (by omega)
  have h2 := hexVal_hexDigit (b % 16) (by omega)
  have h3 : (16 : Nat) * (b / 16) + b % 16 = b := by omega
  simp only [triBytes, List.cons_append, List.nil_append]
  rw [pct_triple _ _ _ h1 h2, h3]

theorem formSafe_ascii {c : Char} (h : isFormSafe c = true) : c.toNat < 128 := by
  simp only [isFormSafe, isAlnumCh, isLowerCh, isUpperCh, isDigitCh,
    Bool.or_eq_true, Bool.and_eq_true, decide_eq_true_eq] at h
  rcases h with ((((((h | h) | h) | h) | h) | h) | h)
  · omega
  · omega
  · omega
  · subst h; decide
  · subst h; decide
  · subst h; decide
  · subst h; decide

theorem formSafe_ne_plus {c : Char} (h : isFormSafe c = true) : c ≠ '+' := by
  intro hc
  subst hc
  exact absurd h (by decide)

theorem formSafe_toNat_ne37 {c : Char} (h : isFormSafe c = true) :
    c.toNat ≠ 37 := by
  intro h37
  have hc := char_eq_of_toNat h37
  rw [show Char.ofNat 37 = '%' from rfl] at hc
  subst hc
  exact absurd h (by decide)

theorem pct_chunks (bs : List Nat) (l : List Nat) (hbs : ∀ b ∈ bs, b < 256) :
    pctDecodeBytes (strBytes
      ((bs.flatMap fun b => ['%', hexDigit (b / 16), hexDigit (b % 16)]).map
        plus2space) ++ l) = bs ++ pctDecodeBytes l := by
  induction bs with
  | nil => simp [strBytes]
  | cons b t ih =>
    have hb : b < 256 := hbs b (by simp)
    have hmap : ((['%', hexDigit (b / 16), hexDigit (b % 16)]).map plus2space) =
        ['%', hexDigit (b / 16), hexDigit (b % 16)] := by
      simp only [List.map_cons, List.map_nil,
        plus2space_hexDigit (b / 16) (by omega),
        plus2space_hexDigit (b % 16) (by omega),
        show plus2space '%' = '%' from rfl]
    have hstr : strBytes ['%', hexDigit (b / 16), hexDigit (b % 16)] =
        triBytes b := by
      have hd1 := hexDigit_toNat_lt (b / 16) (by omega)
      have hd2 := hexDigit_toNat_lt (b % 16) (by omega)
      simp [strBytes, utf8Bytes, triBytes, hd1, hd2]
    rw [List.flatMap_cons, List.map_append, hmap]
    rw [show strBytes (['%', hexDigit (b / 16), hexDigit (b % 16)] ++
      ((t.flatMap fun b => ['%', hexDigit (b / 16), hexDigit (b % 16)]).map
        plus2space)) = triBytes b ++ strBytes
      ((t.flatMap fun b => ['%', hexDigit (b / 16), hexDigit (b % 16)]).map
        plus2space) from by rw [← hstr]; simp [strBytes]]
    rw [List.append_assoc, pct_triBytes b _ hb]
    rw [ih fun x hx => hbs x (by simp [hx])]
    simp

theorem enc_chunk (c : Char) (l : List Nat) :
    pctDecodeBytes (strBytes ((encFormChar c).map plus2space) ++ l) =
      utf8Bytes c ++ pctDecodeBytes l := by
  by_cases hsp : c = ' '
  · subst hsp
    rw [show ((encFormChar ' ').map plus2space) = [' '] from by
      simp [encFormChar, plus2space]]
    rw [show strBytes [' '] = [32] from by simp [strBytes, utf8Bytes]]
    rw [show utf8Bytes ' ' = [32] from by simp [utf8Bytes]]
    rw [List.cons_append, List.nil_append, pct_plain 32 l (by omega)]
    rfl
  · by_cases hsafe : isFormSafe c = true
    · have hascii := formSafe_ascii hsafe
      rw [show ((encFormChar c).map plus2space) = [c] from by
        simp [encFormChar, hsp, hsafe, plus2space, formSafe_ne_plus hsafe]]
      rw [show strBytes [c] = [c.toNat] from by
        simp [strBytes, utf8Bytes, hascii]]
      rw [show utf8Bytes c = [c.toNat] from by simp [utf8Bytes, hascii]]
      rw [List.cons_append, List.nil_append,
        pct_plain c.toNat l (formSafe_toNat_ne37 hsafe)]
      simp
    · rw [show encFormChar c =
        (utf8Bytes c).flatMap (fun b => ['%', hexDigit (b / 16), hexDigit (b % 16)])
        from by simp [encFormChar, hsp, hsafe]]
      exact pct_chunks (utf8Bytes c) l (utf8Bytes_lt c)

theorem pct_decode_enc (v : List Char) (l : List Nat) :
    pctDecodeBytes (strBytes ((formUrlEncode v).map plus2space) ++ l) =
      strBytes v ++ pctDecodeBytes l := by
  induction v with
  | nil => simp [formUrlEncode, strBytes]
  | cons c t ih =>
    rw [show formUrlEncode (c :: t) = encFormChar c ++ formUrlEncode t from by
      simp [formUrlEncode]]
    rw [List.map_append,
      show strBytes (((encFormChar c).map plus2space) ++
        ((formUrlEncode t).map plus2space)) =
        strBytes ((encFormChar c).map plus2space) ++
        strBytes ((formUrlEncode t).map plus2space) from by simp [strBytes]]
    rw [List.append_assoc, enc_chunk, ih]
    rw [show strBytes (c :: t) = utf8Bytes c ++ strBytes t from by
      simp [strBytes]]
    rw [List.append_assoc]

/-- The URLSearchParams component round trip: decoding inverts encoding on
every string. -/
theorem decodeForm_enc (v : List Char) : decodeFormValue (formUrlEncode v) = v := by
  rw [decodeFormValue]
  have h := pct_decode_enc v []
  rw [List.append_nil] at h
  rw [show pctDecodeBytes [] = [] from by simp [pctDecodeBytes], List.append_nil] at h
  rw [h, utf8_decode_strBytes]

/-! ## Serialized parameter lists -/

def isEncOut (x : Char) : Bool :=
  isFormSafe x || x = '+' || x = '%' || isDigitCh x ||
  (65 ≤ x.toNat && x.toNat ≤ 70)

theorem hexDigit_out (n : Nat) (h : n < 16) : isEncOut (hexDigit n) = true := by
  interval_cases n <;> decide

theorem encFormChar_out {c x : Char} (hx : x ∈ encFormChar c) :
    isEncOut x = true := by
  simp only [encFormChar] at hx
  split at hx
  · simp at hx
    subst hx
    decide
  · split at hx
    · rename_i hsafe
      simp at hx
      subst hx
      simp [isEncOut, hsafe]
    · simp only [List.mem_flatMap] at hx
      obtain ⟨b, hb, hxb⟩ := hx
      have hb256 : b < 256 := utf8Bytes_lt c b hb
      simp at hxb
      rcases hxb with h | h | h
      · subst h; decide
      · subst h; exact hexDigit_out _ (by omega)
      · subst h; exact hexDigit_out _ (by omega)

theorem formUrlEncode_out {v : List Char} {x : Char}
    (hx : x ∈ formUrlEncode v) : isEncOut x = true := by
  simp only [formUrlEncode, List.mem_flatMap] at hx
  obtain ⟨c, _, h⟩ := hx
  exact encFormChar_out h

theorem encOut_ne_amp {x : Char} (h : isEncOut x = true) : x ≠ '&' := by
  rintro rfl
  exact absurd h (by decide)

theorem encOut_ne_eq {x : Char} (h : isEncOut x = true) : x ≠ '=' := by
  rintro rfl
  exact absurd h (by decide)

theorem formSafe_frag {x : Char} (h : isFormSafe x = true) :
    isFragChar x = true := by
  simp only [isFormSafe, Bool.or_eq_true, decide_eq_true_eq] at h
  rcases h with (((h | h) | h) | h) | h
  · simp [isFragChar, isUrlChar, h]
  · subst h; decide
  · subst h; decide
  · subst h; decide
  · subst h; decide

theorem encOut_frag {x : Char} (h : isEncOut x = true) : isFragChar x = true := by
  simp only [isEncOut, Bool.or_eq_true, Bool.and_eq_true, decide_eq_true_eq] at h
  rcases h with (((h | h) | h) | h) | h
  · exact formSafe_frag h
  · subst h; decide
  · subst h; decide
  · have : isAlnumCh x = true := by simp [isAlnumCh, h]
    simp [isFragChar, isUrlChar, this]
  · have : isUpperCh x = true := by
      simp only [isUpperCh, Bool.and_eq_true, decide_eq_true_eq]
      omega
    have h2 : isAlnumCh x = true := by simp [isAlnumCh, this]
    simp [isFragChar, isUrlChar, h2]

theorem splitSep_no_sep {c : Char} {x : List Char} (h : ∀ a ∈ x, a ≠ c) :
    splitSep c x = [x] := by
  induction x with
  | nil => rfl
  | cons a t ih =>
    have ha : a ≠ c := h a (by simp)
    rw [splitSep]
    simp [ha, ih fun b hb => h b (by simp [hb])]

theorem splitSep_cons_sep {c : Char} {x r : List Char} (h : ∀ a ∈ x, a ≠ c) :
    splitSep c (x ++ c :: r) = x :: splitSep c r := by
  induction x with
  | nil => simp [splitSep]
  | cons a t ih =>
    have ha : a ≠ c := h a (by simp)
    rw [List.cons_append, splitSep]
    simp [ha, ih fun b hb => h b (by simp [hb])]

theorem piece_parses (k v : List Char) :
    (if (formUrlEncode k ++ '=' :: formUrlEncode v) = [] then none
     else some (decodeFormValue
        ((formUrlEncode k ++ '=' :: formUrlEncode v).takeWhile fun c => c != '='),
      decodeFormValue
        (match (formUrlEncode k ++ '=' :: formUrlEncode v).dropWhile
            (fun c => c != '=') with
         | _ :: v => v
         | [] => []))) = some (k, v) := by
  have hne : (formUrlEncode k ++ '=' :: formUrlEncode v) ≠ [] := by simp
  rw [if_neg hne]
  have hk : ∀ a ∈ formUrlEncode k, (fun c => c != '=') a = true := by
    intro a ha
    simp [encOut_ne_eq (formUrlEncode_out ha)]
  have ht : (formUrlEncode k ++ '=' :: formUrlEncode v).takeWhile
      (fun c => c != '=') = formUrlEncode k :=
    takeWhile_append_stop _ _ hk (by simp)
  have hd : (formUrlEncode k ++ '=' :: formUrlEncode v).dropWhile
      (fun c => c != '=') = '=' :: formUrlEncode v :=
    dropWhile_append_stop _ _ hk (by simp)
  rw [ht, hd]
  simp [decodeForm_enc]

/-- `URLSearchParams` parsing inverts `URLSearchParams` serialization on
every list of key/value pairs. -/
theorem parseFormParams_serialize (ps : List (List Char × List Char)) :
    parseFormParams (serializeParams ps) = ps := by
  induction ps with
  | nil => rfl
  | cons p t ih =>
    obtain ⟨k, v⟩ := p
    have hpieceamp : ∀ a ∈ formUrlEncode k ++ '=' :: formUrlEncode v,
        a ≠ '&' := by
      intro a ha
      rcases List.mem_append.mp ha with h | h
      · exact encOut_ne_amp (formUrlEncode_out h)
      · rcases List.mem_cons.mp h with h | h
        · subst h; decide
        · exact encOut_ne_amp (formUrlEncode_out h)
    cases t with
    | nil =>
      rw [show serializeParams [(k, v)] =
        formUrlEncode k ++ '=' :: formUrlEncode v from by
        simp [serializeParams, joinAmp]]
      rw [parseFormParams, splitSep_no_sep hpieceamp]
      rw [List.filterMap]
      rw [show List.filterMap _ [] = [] from rfl]
      have := piece_parses k v
      simp only at this ⊢
      rw [this]
    | cons q t2 =>
      rw [show serializeParams ((k, v) :: q :: t2) =
        (formUrlEncode k ++ '=' :: formUrlEncode v) ++
          '&' :: serializeParams (q :: t2) from by
        simp [serializeParams, joinAmp]]
      rw [parseFormParams, splitSep_cons_sep hpieceamp]
      rw [List.filterMap]
      have := piece_parses k v
      simp only at this ⊢
      rw [this]
      exact congrArg _ ih

theorem serializeParams_frag (ps : List (List Char × List Char)) :
    ∀ x ∈ serializeParams ps, isFragChar x = true := by
  induction ps with
  | nil => simp [serializeParams, joinAmp]
  | cons p t ih =>
    obtain ⟨k, v⟩ := p
    intro x hx
    cases t with
    | nil =>
      rw [show serializeParams [(k, v)] =
        formUrlEncode k ++ '=' :: formUrlEncode v from by
        simp [serializeParams, joinAmp]] at hx
      rcases List.mem_append.mp hx with h | h
      · exact encOut_frag (formUrlEncode_out h)
      · rcases List.mem_cons.mp h with h | h
        · subst h; decide
        · exact encOut_frag (formUrlEncode_out h)
    | cons q t2 =>
      rw [show serializeParams ((k, v) :: q :: t2) =
        (formUrlEncode k ++ '=' :: formUrlEncode v) ++
          '&' :: serializeParams (q :: t2) from by
        simp [serializeParams, joinAmp]] at hx
      rcases List.mem_append.mp hx with h | h
      · rcases List.mem_append.mp h with h | h
        · exact encOut_frag (formUrlEncode_out h)
        · rcases List.mem_cons.mp h with h | h
          · subst h; decide
          · exact encOut_frag (formUrlEncode_out h)
      · rcases List.mem_cons.mp h with h | h
        · subst h; decide
        · exact ih x h

/-! ## Structure of the multi-account host match -/

theorem splitAcct_shape {h r : List Char} (hs : splitAcct h = some r) :
    ∃ ds run, h = ds ++ '-' :: (run ++ '.' :: r) ∧ ds.length = 12 ∧
      (∀ a ∈ ds, isDigitCh a = true) ∧ run ≠ [] ∧
      (∀ a ∈ run, isLowerAlnum a = true) := by
  simp only [splitAcct] at hs
  split at hs
  rotate_left
  · exact absurd hs (by simp)
  rename_i hds
  rw [Bool.and_eq_true] at hds
  obtain ⟨hlen, hdig⟩ := hds
  split at hs
  rotate_left
  · exact absurd hs (by simp)
  rename_i c t hdrop
  split at hs
  rotate_left
  · exact absurd hs (by simp)
  rename_i hc
  subst hc
  split at hs
  · exact absurd hs (by simp)
  rename_i hrun
  split at hs
  rotate_left
  · exact absurd hs (by simp)
  rename_i d r0 hdw
  split at hs
  rotate_left
  · exact absurd hs (by simp)
  rename_i hd
  subst hd
  injection hs with hs
  subst hs
  refine ⟨h.take 12, t.takeWhile isLowerAlnum, ?_, ?_, ?_, hrun, ?_⟩
  · conv_lhs => rw [← List.take_append_drop 12 h]
    rw [hdrop]
    have ht : t = t.takeWhile isLowerAlnum ++ t.dropWhile isLowerAlnum :=
      (List.takeWhile_append_dropWhile ..).symm
    rw [hdw] at ht
    rw [← ht]
  · simpa using hlen
  · exact List.all_eq_true.mp hdig
  · exact List.all_eq_true.mp (List.all_takeWhile ..)

theorem startsWith_count {n l : List Char} (h : startsWith n l = true)
    (c : Char) : n.count c ≤ l.count c := by
  induction n generalizing l with
  | nil => simp
  | cons a t ih =>
    cases l with
    | nil => exact absurd h (by simp [startsWith])
    | cons b r =>
      simp only [startsWith, Bool.and_eq_true, decide_eq_true_eq] at h
      obtain ⟨hab, ht⟩ := h
      subst hab
      by_cases hc : a = c
      · subst hc
        simp only [List.count_cons_self]
        exact Nat.add_le_add_right (ih ht) 1
      · rw [List.count_cons_of_ne (Ne.symm hc), List.count_cons_of_ne (Ne.symm hc)]
        exact ih ht

theorem containsSeq_count {n l : List Char} (h : containsSeq n l = true)
    (c : Char) : n.count c ≤ l.count c := by
  induction l with
  | nil =>
    simp only [containsSeq, List.isEmpty_iff] at h
    subst h
    simp
  | cons b t ih =>
    simp only [containsSeq, Bool.or_eq_true] at h
    rcases h with h | h
    · exact startsWith_count h c
    · calc n.count c ≤ t.count c := ih h
        _ ≤ (b :: t).count c := by
          by_cases hb : b = c
          · subst hb; simp
          · rw [List.count_cons_of_ne (Ne.symm hb)]

theorem count_dot_digits {ds : List Char} (h : ∀ a ∈ ds, isDigitCh a = true) :
    ds.count '.' = 0 := by
  rw [List.count_eq_zero]
  intro hmem
  have := h _ hmem
  exact absurd this (by decide)

theorem count_dot_lowerAlnum {run : List Char}
    (h : ∀ a ∈ run, isLowerAlnum a = true) : run.count '.' = 0 := by
  rw [List.count_eq_zero]
  intro hmem
  have := h _ hmem
  exact absurd this (by decide)

/-- A host whose multi-account match leaves an empty remainder cannot
contain `console.aws.amazon.com`: such a host has exactly one dot while the
needle has three. -/
theorem splitAcct_empty_no_console {h : List Char}
    (hs : splitAcct h = some []) : containsConsole h = false := by
  obtain ⟨ds, run, hshape, hlen, hdig, hrun, halnum⟩ := splitAcct_shape hs
  cases hcc : containsConsole h
  · rfl
  · exfalso
    have hcount := containsSeq_count hcc '.'
    rw [hshape] at hcount
    have h1 : ds.count '.' = 0 := count_dot_digits hdig
    have h2 : run.count '.' = 0 := count_dot_lowerAlnum halnum
    simp [List.count_append, List.count_cons, h1, h2] at hcount
    revert hcount
    decide

theorem splitAcct_host_len {h r : List Char} (hs : splitAcct h = some r) :
    r.length < h.length := by
  obtain ⟨ds, run, hshape, hlen, _, hrun, _⟩ := splitAcct_shape hs
  rw [hshape]
  simp [List.length_append]
  omega

theorem splitAcct_chars {h r : List Char} (hs : splitAcct h = some r)
    (hh : ∀ a ∈ h, isHostChar a = true) : ∀ a ∈ r, isHostChar a = true := by
  obtain ⟨ds, run, hshape, _, _, _, _⟩ := splitAcct_shape hs
  intro a ha
  exact hh a (by rw [hshape]; simp [ha])

theorem multiMatch_some_iff {h r : List Char} :
    multiMatch h = some r ↔ splitAcct h = some r ∧ r ≠ [] := by
  constructor
  · intro hm
    simp only [multiMatch] at hm
    split at hm
    · rename_i r0 h0
      split at hm
      · exact absurd hm (by simp)
      · injection hm with hm
        subst hm
        exact ⟨h0, by assumption⟩
    · exact absurd hm (by simp)
  · rintro ⟨h1, h2⟩
    simp [multiMatch, h1, h2]

theorem multiMatch_none_iff {h : List Char} :
    multiMatch h = none ↔ splitAcct h = none ∨ splitAcct h = some [] := by
  constructor
  · intro hm
    simp only [multiMatch] at hm
    split at hm
    · rename_i r0 h0
      split at hm
      · rename_i hr0
        subst hr0
        right
        exact h0
      · exact absurd hm (by simp)
    · left
      assumption
  · rintro (h1 | h1) <;> simp [multiMatch, h1]

/-! ## cleanUrl evaluation lemmas -/

theorem cleanUrl_of_parse {s : List Char} {u : URLRec}
    (hp : parseURL s = some u) (hc : containsConsole u.host = true) :
    cleanUrl s = (match multiMatch u.host with
      | some r => mkOk (urlToString { u with host := r }) "clean"
      | none => mkOk (urlToString u) "clean") := by
  obtain ⟨hne, htr⟩ := trim_ne_of_parse hp
  rw [cleanUrl, if_neg hne, if_neg htr, hp]
  simp only [hc, if_pos]

theorem cleanUrl_err_of_noparse {s : List Char} (hne : s ≠ [])
    (htr : trimList s ≠ []) (hp : parseURL s = none) :
    cleanUrl s = mkErr "Invalid URL format" "clean" := by
  rw [cleanUrl, if_neg hne, if_neg htr, hp]

theorem cleanUrl_err_of_noconsole {s : List Char} {u : URLRec}
    (hp : parseURL s = some u) (hc : containsConsole u.host = false) :
    cleanUrl s = mkErr "Not an AWS Console URL" "clean" := by
  obtain ⟨hne, htr⟩ := trim_ne_of_parse hp
  rw [cleanUrl, if_neg hne, if_neg htr, hp]
  simp only [hc]
  rfl

theorem cleanUrl_success_shape {s : List Char}
    (h : (cleanUrl s).success = true) :
    ∃ u, parseURL s = some u ∧ containsConsole u.host = true ∧
      (cleanUrl s).url = some (urlToString (match multiMatch u.host with
        | some r => { u with host := r }
        | none => u)) := by
  by_cases hne : s = []
  · rw [hne] at h
    exact absurd h (by decide)
  by_cases htr : trimList s = []
  · rw [cleanUrl, if_neg hne, if_pos htr] at h
    exact absurd h (by decide)
  cases hp : parseURL s with
  | none =>
    rw [cleanUrl_err_of_noparse hne htr hp] at h
    exact absurd h (by decide)
  | some u =>
    cases hc : containsConsole u.host with
    | false =>
      rw [cleanUrl_err_of_noconsole hp hc] at h
      exact absurd h (by decide)
    | true =>
      refine ⟨u, rfl, hc, ?_⟩
      rw [cleanUrl_of_parse hp hc]
      cases hm : multiMatch u.host <;> simp [mkOk]

theorem cleanUrl_success_of {s : List Char} {u : URLRec}
    (hp : parseURL s = some u) (hc : containsConsole u.host = true) :
    (cleanUrl s).success = true := by
  rw [cleanUrl_of_parse hp hc]
  cases multiMatch u.host <;> rfl

/-! ## generateDeepLink evaluation lemmas -/

theorem parse_base {sub : List Char} (h1 : sub ≠ [])
    (h2 : ∀ a ∈ sub, isHostChar a = true) :
    parseURL (strL "https://" ++ sub ++ strL ".awsapps.com/start/") =
      some ⟨strL "https", sub ++ strL ".awsapps.com", strL "/start/",
        none, none⟩ := by
  have hser : strL "https://" ++ sub ++ strL ".awsapps.com/start/" =
      urlToString ⟨strL "https", sub ++ strL ".awsapps.com", strL "/start/",
        none, none⟩ := by
    rw [urlToString]
    simp only
    rw [show strL "https://" = strL "https" ++ [':', '/', '/'] from rfl]
    rw [show strL ".awsapps.com/start/" =
      strL ".awsapps.com" ++ strL "/start/" from rfl]
    simp [List.append_assoc]
  rw [hser]
  rw [show (⟨strL "https", sub ++ strL ".awsapps.com", strL "/start/",
      none, none⟩ : URLRec) =
    ⟨strL "https", sub ++ strL ".awsapps.com", '/' :: strL "start/",
      none, none⟩ from rfl]
  refine parseURL_toString (by decide) (by decide) ?_ ?_ (by decide)
    (by decide) (fun x hx => absurd hx (by simp))
    (fun x hx => absurd hx (by simp))
  · intro hcon
    have hlen := congrArg List.length hcon
    simp only [List.length_append, List.length_nil] at hlen
    rw [show (strL ".awsapps.com").length = 12 from rfl] at hlen
    omega
  · intro a ha
    rcases List.mem_append.mp ha with h | h
    · exact h2 a h
    · exact (by decide : ∀ a ∈ strL ".awsapps.com", isHostChar a = true) a h

theorem gdl_err_subdomain {si : SessionInfo} {cfg : ExtensionConfig}
    (h : trimList cfg.ssoSubdomain = []) :
    generateDeepLink si cfg = mkErr "AWS SSO subdomain not configured"
      "deeplink" := by
  rw [generateDeepLink, if_pos h]

theorem gdl_err_missing {si : SessionInfo} {cfg : ExtensionConfig}
    (h1 : trimList cfg.ssoSubdomain ≠ [])
    (h2 : si.accountId = [] ∨ si.roleName = [] ∨ si.currentUrl = []) :
    generateDeepLink si cfg = mkErr "Missing session information"
      "deeplink" := by
  rw [generateDeepLink, if_neg h1, if_pos h2]

theorem gdl_err_clean {si : SessionInfo} {cfg : ExtensionConfig}
    (h1 : trimList cfg.ssoSubdomain ≠ [])
    (h2 : ¬(si.accountId = [] ∨ si.roleName = [] ∨ si.currentUrl = []))
    (h3 : (cleanUrl si.currentUrl).success = false) :
    generateDeepLink si cfg = mkErr "Failed to clean destination URL"
      "deeplink" := by
  rw [generateDeepLink, if_neg h1, if_neg h2, if_pos h3]

/-- The deep-link parameter block. -/
def dlParams (si : SessionInfo) : List (List Char × List Char) :=
  [(strL "account_id", si.accountId), (strL "role_name", si.roleName),
   (strL "destination", (cleanUrl si.currentUrl).url.getD [])]

theorem generateDeepLink_ok {si : SessionInfo} {cfg : ExtensionConfig}
    (h1 : trimList cfg.ssoSubdomain ≠ [])
    (h2 : ¬(si.accountId = [] ∨ si.roleName = [] ∨ si.currentUrl = []))
    (h3 : (cleanUrl si.currentUrl).success = true)
    (hhost : ∀ a ∈ trimList cfg.ssoSubdomain, isHostChar a = true) :
    generateDeepLink si cfg = mkOk (urlToString
      ⟨strL "https", trimList cfg.ssoSubdomain ++ strL ".awsapps.com",
        strL "/start/", none,
        some (strL "/console?" ++ serializeParams (dlParams si))⟩)
      "deeplink" := by
  rw [generateDeepLink, if_neg h1, if_neg h2,
    if_neg (by simp [h3]), parse_base h1 hhost]
  rfl

/-! ## Role resolution: source code vs. the spec table -/

theorem resolveRoleName_eq_spec (si : SessionInfo) (cfg : ExtensionConfig) :
    resolveRoleName si cfg = resolveRoleNameSpec si cfg := by
  rw [resolveRoleName, resolveRoleNameSpec]
  by_cases h0 : cfg.roleSelectionStrategy = []
  · have hL : (if cfg.roleSelectionStrategy = [] then strL "current"
        else cfg.roleSelectionStrategy) = strL "current" := if_pos h0
    rw [hL, if_pos rfl, h0]
    rw [if_neg (by decide), if_neg (by decide)]
  · have hL : (if cfg.roleSelectionStrategy = [] then strL "current"
        else cfg.roleSelectionStrategy) = cfg.roleSelectionStrategy :=
      if_neg h0
    rw [hL]
    by_cases h1 : cfg.roleSelectionStrategy = strL "current"
    · rw [if_pos h1, if_neg (by rw [h1]; decide), if_neg (by rw [h1]; decide)]
    · rw [if_neg h1]
      by_cases h2 : cfg.roleSelectionStrategy = strL "default"
      · rw [if_pos h2, if_pos h2]
        cases cfg.defaultRoleName <;> simp
      · rw [if_neg h2, if_neg h2]
        by_cases h3 : cfg.roleSelectionStrategy = strL "account-map"
        · rw [if_pos h3, if_pos h3]
          cases hlk : lookupRole cfg.accountRoleMap si.accountId with
          | none => cases cfg.defaultRoleName <;> simp
          | some r => cases r <;> cases cfg.defaultRoleName <;> simp
        · rw [if_neg h3, if_neg h3]

/-! ## Claim theorems -/

/-- C1: for every input string that parses as a URL whose host contains
`console.aws.amazon.com` and matches the multi-account pattern, `cleanUrl`
succeeds with the host replaced by the captured remainder only; the scheme,
path, query and fragment of the output URL equal those of the input. -/
theorem c1_clean_strips_prefix_host_only {s : List Char} {u : URLRec}
    {r : List Char} (hp : parseURL s = some u)
    (hc : containsConsole u.host = true) (hm : multiMatch u.host = some r) :
    cleanUrl s = mkOk (urlToString { u with host := r }) "clean" ∧
    ∃ v, parseURL (urlToString { u with host := r }) = some v ∧
      v.host = r ∧ v.scheme = u.scheme ∧ v.path = u.path ∧
      v.query = u.query ∧ v.fragment = u.fragment := by
  have h1 := cleanUrl_of_parse hp hc
  rw [hm] at h1
  refine ⟨h1, { u with host := r }, ?_, rfl, rfl, rfl, rfl, rfl⟩
  obtain ⟨hsa, hrne⟩ := multiMatch_some_iff.mp hm
  obtain ⟨w1, w2, w3, w4, w5, w6, w7, w8, w9⟩ := wfURL_elim (parseURL_sound hp)
  apply parseURL_toString_wf
  obtain ⟨sch, host, p, q, fr⟩ := u
  exact wfURL_intro w1 w2 hrne (splitAcct_chars hsa w4) w5 w6 w7 w8 w9

def c1s : List Char :=
  strL "https://123456789012-abc123def.eu-west-1.console.aws.amazon.com/cloudwatch/home?region=eu-west-1"

def c1u : URLRec :=
  ⟨strL "https",
   strL "123456789012-abc123def.eu-west-1.console.aws.amazon.com",
   strL "/cloudwatch/home", some (strL "region=eu-west-1"), none⟩

def c1r : List Char := strL "eu-west-1.console.aws.amazon.com"

theorem c1_witness :
    cleanUrl c1s = mkOk (urlToString { c1u with host := c1r }) "clean" ∧
    ∃ v, parseURL (urlToString { c1u with host := c1r }) = some v ∧
      v.host = c1r ∧ v.scheme = c1u.scheme ∧ v.path = c1u.path ∧
      v.query = c1u.query ∧ v.fragment = c1u.fragment :=
  c1_clean_strips_prefix_host_only (by decide) (by decide) (by decide)

/-- C2 counterexample: with strategy `account-map`, a map entry whose value
is the empty string makes the key exist, yet the resolved role is the
default role, not the mapped value — the code tests the value for JS
truthiness, not the key for existence. -/
def c2si : SessionInfo :=
  ⟨strL "123456789012", strL "CurrentRole",
   strL "https://console.aws.amazon.com/home", false, strL "eu-west-1"⟩

def c2cfg : ExtensionConfig :=
  ⟨strL "mycompany", strL "clean", false, false, strL "account-map",
   strL "FallbackRole", [(strL "123456789012", [])]⟩

theorem c2_counterexample :
    lookupRole c2cfg.accountRoleMap c2si.accountId = some [] ∧
    resolveRoleName c2si c2cfg = strL "FallbackRole" ∧
    strL "FallbackRole" ≠ ([] : List Char) := by
  refine ⟨rfl, rfl, by decide⟩

/-- C2 (amended): `resolveRoleName` follows the three-tier policy with the
account-map tier applying only when the mapped value is non-empty:
`current` and unrecognized/missing strategies yield the session role;
`default` yields the default role when non-empty, else the session role;
`account-map` yields the mapped value when the key exists with a non-empty
value, else the non-empty default role, else the session role. -/
theorem c2_role_resolution (si : SessionInfo) (cfg : ExtensionConfig) :
    resolveRoleName si cfg = resolveRoleNameSpec si cfg :=
  resolveRoleName_eq_spec si cfg

/-- C3 counterexample: a subdomain containing a slash produces a successful
deep link whose host is not `{subdomain}.awsapps.com` — the subdomain is
interpolated into the URL without validation, so it can introduce its own
path boundary. -/
def c3si : SessionInfo :=
  ⟨strL "123456789012", strL "Admin",
   strL "https://console.aws.amazon.com/home", false, strL "eu-west-1"⟩

def c3cfg : ExtensionConfig :=
  ⟨strL "evil.com/x", strL "clean", false, false, strL "current", [], []⟩

def c3out : List Char := (generateDeepLink c3si c3cfg).url.getD []

def c3v : URLRec := (parseURL c3out).getD ⟨[], [], [], none, none⟩

theorem c3_counterexample :
    (generateDeepLink c3si c3cfg).success = true ∧
    (generateDeepLink c3si c3cfg).url = some c3out ∧
    parseURL c3out = some c3v ∧
    c3v.host ≠ trimList c3cfg.ssoSubdomain ++ strL ".awsapps.com" := by
  refine ⟨rfl, rfl, rfl, by decide⟩

/-- C3 (amended with the hypothesis that the trimmed subdomain consists of
host characters): every successful `generateDeepLink` result parses, has
host `{trimmed subdomain}.awsapps.com`, and its fragment is `/console?`
followed by a query string whose parsed, percent-decoded pairs are exactly
`account_id`, `role_name` and `destination` with the session's account id,
the session's role name, and the cleaned destination URL. -/
theorem c3_deeplink_wellformed {si : SessionInfo} {cfg : ExtensionConfig}
    {out : List Char}
    (hhost : ∀ a ∈ trimList cfg.ssoSubdomain, isHostChar a = true)
    (hs : (generateDeepLink si cfg).success = true)
    (hu : (generateDeepLink si cfg).url = some out) :
    ∃ v rest, parseURL out = some v ∧
      v.host = trimList cfg.ssoSubdomain ++ strL ".awsapps.com" ∧
      v.fragment = some (strL "/console?" ++ rest) ∧
      parseFormParams rest =
        [(strL "account_id", si.accountId), (strL "role_name", si.roleName),
         (strL "destination", (cleanUrl si.currentUrl).url.getD [])] := by
  by_cases h1 : trimList cfg.ssoSubdomain = []
  · rw [gdl_err_subdomain h1] at hs
    exact absurd hs (by decide)
  by_cases h2 : si.accountId = [] ∨ si.roleName = [] ∨ si.currentUrl = []
  · rw [gdl_err_missing h1 h2] at hs
    exact absurd hs (by decide)
  cases h3 : (cleanUrl si.currentUrl).success with
  | false =>
    rw [gdl_err_clean h1 h2 h3] at hs
    exact absurd hs (by decide)
  | true =>
    rw [generateDeepLink_ok h1 h2 h3 hhost] at hu
    simp only [mkOk, Option.some.injEq] at hu
    refine ⟨⟨strL "https", trimList cfg.ssoSubdomain ++ strL ".awsapps.com",
      strL "/start/", none,
      some (strL "/console?" ++ serializeParams (dlParams si))⟩,
      serializeParams (dlParams si), ?_, rfl, rfl, ?_⟩
    · rw [← hu]
      rw [show (⟨strL "https", trimList cfg.ssoSubdomain ++ strL ".awsapps.com",
          strL "/start/", none,
          some (strL "/console?" ++ serializeParams (dlParams si))⟩ : URLRec) =
        ⟨strL "https", trimList cfg.ssoSubdomain ++ strL ".awsapps.com",
          '/' :: strL "start/", none,
          some (strL "/console?" ++ serializeParams (dlParams si))⟩ from rfl]
      refine parseURL_toString (by decide) (by decide) ?_ ?_ (by decide)
        (by decide) (fun x hx => absurd hx (by simp)) ?_
      · intro hcon
        have hlen := congrArg List.length hcon
        simp only [List.length_append, List.length_nil] at hlen
        rw [show (strL ".awsapps.com").length = 12 from rfl] at hlen
        omega
      · intro a ha
        rcases List.mem_append.mp ha with h | h
        · exact hhost a h
        · exact (by decide : ∀ a ∈ strL ".awsapps.com", isHostChar a = true) a h
      · intro x hx a ha
        injection hx with hx
        subst hx
        rcases List.mem_append.mp ha with h | h
        · exact (by decide : ∀ a ∈ strL "/console?", isFragChar a = true) a h
        · exact serializeParams_frag _ a h
    · rw [parseFormParams_serialize]
      rfl

def c3si2 : SessionInfo :=
  ⟨strL "123456789012", strL "PlatformAccess",
   strL "https://eu-west-1.console.aws.amazon.com/cloudwatch", false,
   strL "eu-west-1"⟩

def c3cfg2 : ExtensionConfig :=
  ⟨strL "mycompany", strL "clean", false, false, strL "current", [], []⟩

theorem c3_witness :
    ∃ v rest,
      parseURL ((generateDeepLink c3si2 c3cfg2).url.getD []) = some v ∧
      v.host = trimList c3cfg2.ssoSubdomain ++ strL ".awsapps.com" ∧
      v.fragment = some (strL "/console?" ++ rest) ∧
      parseFormParams rest =
        [(strL "account_id", c3si2.accountId),
         (strL "role_name", c3si2.roleName),
         (strL "destination", (cleanUrl c3si2.currentUrl).url.getD [])] :=
  c3_deeplink_wellformed (by decide) (by rfl) (by rfl)

/-- C4: the three preconditions of `generateDeepLink` are checked in order,
each failing with its own distinct message, and an earlier failure fully
determines the result so later messages are never produced. -/
theorem c4_precondition_order (si : SessionInfo) (cfg : ExtensionConfig) :
    (trimList cfg.ssoSubdomain = [] →
      generateDeepLink si cfg =
        mkErr "AWS SSO subdomain not configured" "deeplink") ∧
    (trimList cfg.ssoSubdomain ≠ [] →
      (si.accountId = [] ∨ si.roleName = [] ∨ si.currentUrl = []) →
      generateDeepLink si cfg = mkErr "Missing session information" "deeplink") ∧
    (trimList cfg.ssoSubdomain ≠ [] →
      ¬(si.accountId = [] ∨ si.roleName = [] ∨ si.currentUrl = []) →
      (cleanUrl si.currentUrl).success = false →
      generateDeepLink si cfg =
        mkErr "Failed to clean destination URL" "deeplink") ∧
    mkErr "AWS SSO subdomain not configured" "deeplink" ≠
      mkErr "Missing session information" "deeplink" ∧
    mkErr "AWS SSO subdomain not configured" "deeplink" ≠
      mkErr "Failed to clean destination URL" "deeplink" ∧
    mkErr "Missing session information" "deeplink" ≠
      mkErr "Failed to clean destination URL" "deeplink" := by
  refine ⟨fun h => gdl_err_subdomain h,
    fun h1 h2 => gdl_err_missing h1 h2,
    fun h1 h2 h3 => gdl_err_clean h1 h2 h3, by decide, by decide, by decide⟩

def c4cfgEmpty : ExtensionConfig :=
  ⟨strL "  ", strL "clean", false, false, strL "current", [], []⟩

def c4siMissing : SessionInfo :=
  ⟨strL "123456789012", [], strL "https://console.aws.amazon.com/", false, []⟩

def c4siBadUrl : SessionInfo :=
  ⟨strL "123456789012", strL "Admin", strL "https://example.com/", false, []⟩

def c4cfgOk : ExtensionConfig :=
  ⟨strL "mycompany", strL "clean", false, false, strL "current", [], []⟩

theorem c4_witness :
    generateDeepLink c2si c4cfgEmpty =
      mkErr "AWS SSO subdomain not configured" "deeplink" ∧
    generateDeepLink c4siMissing c4cfgOk =
      mkErr "Missing session information" "deeplink" ∧
    generateDeepLink c4siBadUrl c4cfgOk =
      mkErr "Failed to clean destination URL" "deeplink" :=
  ⟨(c4_precondition_order c2si c4cfgEmpty).1 (by decide),
   (c4_precondition_order c4siMissing c4cfgOk).2.1 (by decide) (by decide),
   (c4_precondition_order c4siBadUrl c4cfgOk).2.2.1 (by decide) (by decide)
     (by decide)⟩

/-- C5 counterexample: `https://console.aws.amazon.com` (no path) is a
valid console URL not matching the multi-account pattern, yet `cleanUrl`
returns `https://console.aws.amazon.com/` — the serializer's normalized
form, not the input string. -/
def c5s : List Char := strL "https://console.aws.amazon.com"

theorem c5_counterexample :
    parseURL c5s = some ⟨strL "https", strL "console.aws.amazon.com",
      strL "/", none, none⟩ ∧
    containsConsole (strL "console.aws.amazon.com") = true ∧
    multiMatch (strL "console.aws.amazon.com") = none ∧
    (cleanUrl c5s).success = true ∧
    (cleanUrl c5s).url ≠ some c5s := by
  refine ⟨by decide, by decide, by decide, rfl, by decide⟩

/-- C5 (amended): for a parsed console URL whose host does not match the
multi-account pattern, `cleanUrl` succeeds with the normalized
serialization of the parsed input — which equals the input string exactly
when the input is already in serialized form. -/
theorem c5_clean_passthrough {s : List Char} {u : URLRec}
    (hp : parseURL s = some u) (hc : containsConsole u.host = true)
    (hm : multiMatch u.host = none) :
    cleanUrl s = mkOk (urlToString u) "clean" ∧
    (urlToString u = s → cleanUrl s = mkOk s "clean") := by
  have h := cleanUrl_of_parse hp hc
  rw [hm] at h
  exact ⟨h, fun he => he ▸ h⟩

def c5sW : List Char := strL "https://eu-west-1.console.aws.amazon.com/x"

theorem c5_witness :
    cleanUrl c5sW = mkOk (urlToString ⟨strL "https",
      strL "eu-west-1.console.aws.amazon.com", strL "/x", none, none⟩)
      "clean" ∧
    (urlToString ⟨strL "https", strL "eu-west-1.console.aws.amazon.com",
      strL "/x", none, none⟩ = c5sW → cleanUrl c5sW = mkOk c5sW "clean") :=
  c5_clean_passthrough (by decide) (by decide) (by decide)

/-- C6 counterexample: `https://console.aws.amazon.com?region=x` is a valid
console URL, `isMultiAccountUrl` is false on it, yet `cleanUrl` returns the
normalized `https://console.aws.amazon.com/?region=x`, different from the
input — so the claimed equivalence fails on non-normalized inputs. -/
def c6s : List Char := strL "https://console.aws.amazon.com?region=x"

theorem c6_counterexample :
    (cleanUrl c6s).success = true ∧ isMultiAccountUrl c6s = false ∧
    (cleanUrl c6s).url ≠ some c6s := by
  refine ⟨rfl, by decide, by decide⟩

/-- C6 (amended with a normalization hypothesis): for a console URL that is
already in serialized form, `isMultiAccountUrl` is true exactly when
`cleanUrl` changes the URL. -/
theorem c6_round_trip_detection {s : List Char} {u : URLRec}
    (hp : parseURL s = some u) (hnorm : urlToString u = s)
    (hc : containsConsole u.host = true) :
    isMultiAccountUrl s = true ↔ (cleanUrl s).url ≠ some s := by
  constructor
  · intro hmulti
    simp only [isMultiAccountUrl, hp] at hmulti
    obtain ⟨r, hr⟩ := Option.isSome_iff_exists.mp hmulti
    have hrne : r ≠ [] := by
      rintro rfl
      have h0 := splitAcct_empty_no_console hr
      rw [h0] at hc
      exact absurd hc (by decide)
    have hm := multiMatch_some_iff.mpr ⟨hr, hrne⟩
    have hcl := cleanUrl_of_parse hp hc
    rw [hm] at hcl
    rw [hcl]
    simp only [mkOk, ne_eq, Option.some.injEq]
    intro heq
    have hwfu := parseURL_sound hp
    have hwfu2 : wfURL { u with host := r } = true := by
      obtain ⟨w1, w2, w3, w4, w5, w6, w7, w8, w9⟩ := wfURL_elim hwfu
      obtain ⟨sch, host, p, q, fr⟩ := u
      exact wfURL_intro w1 w2 hrne (splitAcct_chars hr w4) w5 w6 w7 w8 w9
    have hequ : ({ u with host := r } : URLRec) = u :=
      urlToString_inj hwfu2 hwfu (heq.trans hnorm.symm)
    have hrh : r = u.host := congrArg URLRec.host hequ
    have hlen := splitAcct_host_len hr
    rw [hrh] at hlen
    omega
  · intro hne
    by_contra hm0
    have hnone : splitAcct u.host = none :=
      Option.not_isSome_iff_eq_none.mp
        (by simpa [isMultiAccountUrl, hp] using hm0)
    have hcl := cleanUrl_of_parse hp hc
    rw [multiMatch_none_iff.mpr (Or.inl hnone)] at hcl
    exact hne (by rw [hcl]; simp [mkOk, hnorm])

def c6sW : List Char :=
  strL "https://123456789012-abc.eu-west-1.console.aws.amazon.com/home"

def c6uW : URLRec :=
  ⟨strL "https", strL "123456789012-abc.eu-west-1.console.aws.amazon.com",
   strL "/home", none, none⟩

theorem c6_witness :
    isMultiAccountUrl c6sW = true ↔ (cleanUrl c6sW).url ≠ some c6sW :=
  c6_round_trip_detection (u := c6uW) (by decide) (by decide) (by decide)

/-- C7 counterexample: cleaning `https://123456789012-console.aws.amazon.com/`
strips the prefix and yields `https://aws.amazon.com/`, whose host no longer
contains `console.aws.amazon.com`; cleaning that output fails, so
`cleanUrl(cleanUrl(u).url) ≠ cleanUrl(u)` for this accepted input. -/
def c7s : List Char := strL "https://123456789012-console.aws.amazon.com/"

theorem c7_counterexample :
    (cleanUrl c7s).success = true ∧
    (cleanUrl c7s).url = some (strL "https://aws.amazon.com/") ∧
    cleanUrl ((cleanUrl c7s).url.getD []) ≠ cleanUrl c7s := by
  refine ⟨rfl, rfl, by decide⟩

/-- The host after one cleaning step. -/
def cleanHost (h : List Char) : List Char :=
  match multiMatch h with
  | some r => r
  | none => h

/-- C7 (amended): `cleanUrl` is idempotent on every accepted URL whose
once-cleaned host still contains `console.aws.amazon.com` and is not itself
in multi-account form — in particular cleaning an already-clean URL is a
no-op. -/
theorem c7_clean_idempotent {s : List Char} {u : URLRec}
    (hp : parseURL s = some u) (hc : containsConsole u.host = true)
    (hc2 : containsConsole (cleanHost u.host) = true)
    (hm2 : splitAcct (cleanHost u.host) = none) :
    cleanUrl ((cleanUrl s).url.getD []) = cleanUrl s := by
  have hcl := cleanUrl_of_parse hp hc
  cases hm : multiMatch u.host with
  | none =>
    have hch : cleanHost u.host = u.host := by simp [cleanHost, hm]
    rw [hch] at hc2 hm2
    rw [hm] at hcl
    rw [hcl]
    simp only [mkOk, Option.getD_some]
    have hp2 : parseURL (urlToString u) = some u :=
      parseURL_toString_wf (parseURL_sound hp)
    have h2 := cleanUrl_of_parse hp2 hc2
    rw [multiMatch_none_iff.mpr (Or.inl hm2)] at h2
    exact h2
  | some r =>
    have hch : cleanHost u.host = r := by simp [cleanHost, hm]
    rw [hch] at hc2 hm2
    rw [hm] at hcl
    rw [hcl]
    simp only [mkOk, Option.getD_some]
    obtain ⟨hsa, hrne⟩ := multiMatch_some_iff.mp hm
    have hwfu2 : wfURL { u with host := r } = true := by
      obtain ⟨w1, w2, w3, w4, w5, w6, w7, w8, w9⟩ :=
        wfURL_elim (parseURL_sound hp)
      obtain ⟨sch, host, p, q, fr⟩ := u
      exact wfURL_intro w1 w2 hrne (splitAcct_chars hsa w4) w5 w6 w7 w8 w9
    have hp2 : parseURL (urlToString { u with host := r }) =
        some { u with host := r } := parseURL_toString_wf hwfu2
    have h2 := cleanUrl_of_parse hp2 (by simpa using hc2)
    rw [show multiMatch ({ u with host := r } : URLRec).host = none from
      multiMatch_none_iff.mpr (Or.inl (by simpa using hm2))] at h2
    exact h2

def c7sW : List Char :=
  strL "https://123456789012-xyz9.eu-west-1.console.aws.amazon.com/ec2/home"

def c7uW : URLRec :=
  ⟨strL "https",
   strL "123456789012-xyz9.eu-west-1.console.aws.amazon.com",
   strL "/ec2/home", none, none⟩

theorem c7_witness :
    cleanUrl ((cleanUrl c7sW).url.getD []) = cleanUrl c7sW :=
  c7_clean_idempotent (u := c7uW) (by decide) (by decide) (by decide)
    (by decide)

/-- C8: every input produces a structured result rather than an exception:
`cleanUrl` and `generateDeepLink` always return either success with a URL
or failure with an error message, and on inputs the URL parser rejects the
boolean/nullable helpers return their safe defaults. -/
theorem c8_never_throws (s : List Char) (si : SessionInfo)
    (cfg : ExtensionConfig) :
    ((cleanUrl s).success = true ∧ (∃ u, (cleanUrl s).url = some u) ∨
      (cleanUrl s).success = false ∧ ∃ e, (cleanUrl s).error = some e) ∧
    ((generateDeepLink si cfg).success = true ∧
        (∃ u, (generateDeepLink si cfg).url = some u) ∨
      (generateDeepLink si cfg).success = false ∧
        ∃ e, (generateDeepLink si cfg).error = some e) ∧
    (parseURL s = none → isMultiAccountUrl s = false ∧
      validateAwsConsoleUrl s = false ∧ extractRegionFromUrl s = none) := by
  refine ⟨?_, ?_, ?_⟩
  · rw [cleanUrl]
    split
    · exact Or.inr ⟨rfl, _, rfl⟩
    split
    · exact Or.inr ⟨rfl, _, rfl⟩
    split
    · exact Or.inr ⟨rfl, _, rfl⟩
    split
    · split
      · exact Or.inl ⟨rfl, _, rfl⟩
      · exact Or.inl ⟨rfl, _, rfl⟩
    · exact Or.inr ⟨rfl, _, rfl⟩
  · rw [generateDeepLink]
    split
    · exact Or.inr ⟨rfl, _, rfl⟩
    split
    · exact Or.inr ⟨rfl, _, rfl⟩
    split
    · exact Or.inr ⟨rfl, _, rfl⟩
    split
    · exact Or.inr ⟨rfl, _, rfl⟩
    · exact Or.inl ⟨rfl, _, rfl⟩
  · intro h
    refine ⟨by simp [isMultiAccountUrl, h], ?_, by simp [extractRegionFromUrl, h]⟩
    by_cases hse : s = []
    · simp [validateAwsConsoleUrl, hse]
    · simp [validateAwsConsoleUrl, hse, h]

theorem c8_witness :
    isMultiAccountUrl (strL "not a url") = false ∧
    validateAwsConsoleUrl (strL "not a url") = false ∧
    extractRegionFromUrl (strL "not a url") = none :=
  (c8_never_throws (strL "not a url") ⟨[], [], [], false, []⟩
    ⟨[], [], false, false, [], [], []⟩).2.2 (by decide)

/-- C9: the module-level `generateDeepLink` reads nothing from the
configuration except `ssoSubdomain`: two configurations agreeing on the
subdomain produce identical results for every session, regardless of
role-selection strategy, default role, or account-role map. -/
theorem c9_config_noninterference (si : SessionInfo)
    (c1 c2 : ExtensionConfig) (h : c1.ssoSubdomain = c2.ssoSubdomain) :
    generateDeepLink si c1 = generateDeepLink si c2 := by
  simp only [generateDeepLink, h]

def c9si : SessionInfo :=
  ⟨strL "123456789012", strL "SessionRole",
   strL "https://console.aws.amazon.com/home", false, strL "eu-west-1"⟩

def c9c1 : ExtensionConfig :=
  ⟨strL "mycompany", strL "clean", false, false, strL "account-map",
   strL "OtherRole", [(strL "123456789012", strL "MappedRole")]⟩

def c9c2 : ExtensionConfig :=
  ⟨strL "mycompany", strL "deeplink", true, true, strL "current", [], []⟩

theorem c9_witness :
    c9c1.ssoSubdomain = c9c2.ssoSubdomain ∧
    generateDeepLink c9si c9c1 = generateDeepLink c9si c9c2 :=
  ⟨rfl, c9_config_noninterference c9si c9c1 c9c2 rfl⟩

/-- C10: `generateDeepLink` applies no format validation to the session
fields: whenever the trimmed subdomain is non-empty and interpolates into a
parseable base URL, and the three session fields are non-empty with a
`cleanUrl`-accepted current URL, the call succeeds — regardless of the
shape of `accountId` or `roleName`. -/
theorem c10_no_format_validation (si : SessionInfo) (cfg : ExtensionConfig)
    (h1 : trimList cfg.ssoSubdomain ≠ [])
    (hb : (parseURL (strL "https://" ++ trimList cfg.ssoSubdomain ++
      strL ".awsapps.com/start/")).isSome = true)
    (h2 : si.accountId ≠ []) (h3 : si.roleName ≠ []) (h4 : si.currentUrl ≠ [])
    (h5 : (cleanUrl si.currentUrl).success = true) :
    (generateDeepLink si cfg).success = true ∧
    ∃ o, (generateDeepLink si cfg).url = some o := by
  have hno : ¬(si.accountId = [] ∨ si.roleName = [] ∨ si.currentUrl = []) :=
    fun hcon => hcon.elim h2 fun hc2 => hc2.elim h3 h4
  rw [generateDeepLink, if_neg h1, if_neg hno, if_neg (by simp [h5])]
  obtain ⟨b, hb2⟩ := Option.isSome_iff_exists.mp hb
  rw [hb2]
  exact ⟨rfl, _, rfl⟩

def c10si : SessionInfo :=
  ⟨strL "12AB", strL "my role!?", strL "https://console.aws.amazon.com/home",
   false, []⟩

def c10cfg : ExtensionConfig :=
  ⟨strL "mycompany", strL "clean", false, false, strL "current", [], []⟩

theorem c10_witness :
    (generateDeepLink c10si c10cfg).success = true ∧
    ∃ o, (generateDeepLink c10si c10cfg).url = some o :=
  c10_no_format_validation c10si c10cfg (by decide) (by decide) (by decide)
    (by decide) (by decide) (by rfl)

end AwsExt
